import Mathlib

/-!
Shallow embedding of the RAG server (`src/server.js`): the paragraph
chunker (`chunkText`), the bag-of-words vectorizer (`simpleEmbedding` and
the vocabulary construction from `/upload`), the cosine similarity ranker,
and the `/upload` / `/ask` endpoint logic over the in-memory document
store.

Strings are modelled as `List Char` (the inputs of interest are ASCII, so
JavaScript UTF-16 code-unit lengths coincide with character counts).
JavaScript numbers are modelled as exact values: term counts as `ℚ` and
similarity scores as `Option ℝ`, where `none` stands for the IEEE `NaN`
that `cosineSimilarity` produces when a zero denominator meets a zero
numerator (a zero-norm vector forces both).
-/

namespace RagServer

abbrev Str := List Char

/-- A chunk as produced by `chunkText` in `server.js`:
`{ id: chunkIndex++, text: currentChunk.trim() }`. -/
structure Chunk where
  id : ℕ
  text : Str
deriving DecidableEq

/-- JavaScript `String.prototype.trim()`: strip whitespace from both ends. -/
def trimStr (s : Str) : Str :=
  ((s.dropWhile Char.isWhitespace).reverse.dropWhile Char.isWhitespace).reverse

/-- One character of the scan behind `splitParas`.  The state is the
pieces already closed, the piece being built, and the number of pending
newline characters not yet assigned: a pending run of two or more is a
separator match of `/\n\n+/` (it closes the piece), a pending run of one
belongs to the current piece. -/
def splitParasStep (st : List Str × Str × ℕ) (c : Char) : List Str × Str × ℕ :=
  if c = '\n' then (st.1, st.2.1, st.2.2 + 1)
  else if st.2.2 ≥ 2 then (st.1 ++ [st.2.1], [c], 0)
  else (st.1, st.2.1 ++ List.replicate st.2.2 '\n' ++ [c], 0)

/-- JavaScript `text.split(/\n\n+/)`: split at every maximal run of two or
more consecutive newline characters.  Like the JavaScript original it
yields empty pieces for separator matches at the very start or end, and
`[""]` on `""`. -/
def splitParas (s : Str) : List Str :=
  let st := s.foldl splitParasStep ([], [], 0)
  if st.2.2 ≥ 2 then st.1 ++ [st.2.1, []]
  else st.1 ++ [st.2.1 ++ List.replicate st.2.2 '\n']

/-- Worker for `splitSpace`: `acc` holds the current piece, reversed. -/
def splitSpaceAux (acc : Str) : Str → List Str
  | [] => [acc.reverse]
  | c :: rest =>
    if c = ' ' then acc.reverse :: splitSpaceAux [] rest
    else splitSpaceAux (c :: acc) rest

/-- JavaScript `str.split(' ')`: split at every single space character;
consecutive spaces produce empty pieces, and the result is never empty. -/
def splitSpace (s : Str) : List Str := splitSpaceAux [] s

/-- JavaScript `arr.join(' ')`: interleave a single space between pieces. -/
def joinSp : List Str → Str
  | [] => []
  | [w] => w
  | w :: v :: ws => w ++ ' ' :: joinSp (v :: ws)

/-- JavaScript `arr.slice(-n)` for a non-negative integer `n`.  For `n > 0`
this keeps the trailing `min n (length arr)` elements; for `n = 0` the
argument is `-0`, which JavaScript treats as `0`, so `slice(0)` returns the
whole array. -/
def jsSliceFromEnd (l : List α) (n : ℕ) : List α :=
  if n = 0 then l else l.drop (l.length - n)

/-- State of the `for (const para of paragraphs)` loop in `chunkText`:
the chunks pushed so far, the running `currentChunk` buffer, and the next
`chunkIndex`. -/
structure ChunkState where
  chunks : List Chunk
  current : Str
  idx : ℕ
deriving DecidableEq

/-- One iteration of the paragraph loop of `chunkText` in `server.js`.
When appending `para` would push the buffer past `chunkSize` and the buffer
is non-empty, the buffer is closed (trimmed and pushed) and the new buffer
is seeded with `words.slice(-Math.floor(overlap / 5)).join(' ') + ' ' + para`
where `words = currentChunk.split(' ')`.  Otherwise `para` is appended to
the buffer, preceded by `"\n\n"` when the buffer is non-empty. -/
def chunkStep (chunkSize overlap : ℕ) (st : ChunkState) (para : Str) : ChunkState :=
  if (st.current ++ para).length > chunkSize ∧ st.current.length > 0 then
    { chunks := st.chunks ++ [⟨st.idx, trimStr st.current⟩]
      current := joinSp (jsSliceFromEnd (splitSpace st.current) (overlap / 5)) ++ ' ' :: para
      idx := st.idx + 1 }
  else
    { st with current := st.current ++ (if st.current = [] then [] else ['\n', '\n']) ++ para }

/-- The function `chunkText(text, chunkSize, overlap)` from `server.js`: fold the
paragraph loop over `text.split(/\n\n+/)`, then flush the remaining buffer
when its trimmed form is non-empty (`if (currentChunk.trim())`). -/
def chunkText (text : Str) (chunkSize overlap : ℕ) : List Chunk :=
  let st := (splitParas text).foldl (chunkStep chunkSize overlap) ⟨[], [], 0⟩
  if trimStr st.current ≠ [] then st.chunks ++ [⟨st.idx, trimStr st.current⟩]
  else st.chunks

/-- A word character in the sense of the regex `\w`: `[A-Za-z0-9_]`.
`Char.isAlphanum` is exactly the ASCII ranges. -/
def isWordChar (c : Char) : Bool := c.isAlphanum || c = '_'

/-- One character of the scan behind `tokenizeRuns`: extend the current
run on a word character, close it (when non-empty) on anything else. -/
def tokenizeStep (st : List Str × Str) (c : Char) : List Str × Str :=
  if isWordChar c then (st.1, st.2 ++ [c])
  else if st.2 = [] then st
  else (st.1 ++ [st.2], [])

/-- Maximal runs of word characters, as matched by `/\b\w+\b/g`: on a
string, `\b\w+\b` with a global scan matches exactly the maximal runs of
word characters. -/
def tokenizeRuns (s : Str) : List Str :=
  let st := s.foldl tokenizeStep ([], [])
  if st.2 = [] then st.1 else st.1 ++ [st.2]

/-- JavaScript `text.toLowerCase().match(/\b\w+\b/g) || []` from `server.js` (the
token stream both the vocabulary and every vector are built from). -/
def wordsOf (text : Str) : List Str := tokenizeRuns (text.map Char.toLower)

/-- Worker modelling `[...new Set(words)]`: keep each word the first time
it is seen (JavaScript `Set` iteration order is insertion order). -/
def dedupFirstAux (seen : List Str) : List Str → List Str
  | [] => []
  | w :: rest =>
    if w ∈ seen then dedupFirstAux seen rest
    else w :: dedupFirstAux (w :: seen) rest

/-- JavaScript `[...new Set(l)]`: deduplicate preserving first-occurrence order. -/
def dedupFirst (l : List Str) : List Str := dedupFirstAux [] l

/-- The vocabulary construction of `/upload` in `server.js`:
`[...new Set(chunks.flatMap(c => c.text.toLowerCase().match(/\b\w+\b/g) || []))].slice(0, 500)`,
with the literal `500` generalized to the `maxTerms` parameter of the
spec contract (the endpoint instantiates it with `500`). -/
def buildVocabulary (texts : List Str) (maxTerms : ℕ) : List Str :=
  (dedupFirst (texts.flatMap wordsOf)).take maxTerms

/-- The vector `simpleEmbedding(text, vocabulary).vector` from `server.js` for a
provided (non-null) vocabulary: `vector[idx] = wordCounts[vocab[idx]] || 0`,
i.e. the occurrence count of each vocabulary term in the token stream.
(The `vocabulary === null` branch is never taken by the endpoints, which
always pass the document vocabulary.) -/
def simpleEmbedding (text : Str) (vocabulary : List Str) : List ℕ :=
  vocabulary.map (fun w => (wordsOf text).count w)

/-- View a count vector as a vector of exact numbers (JavaScript holds the
counts as numbers; they are small integers, represented exactly). -/
def toRatVec (v : List ℕ) : List ℚ := v.map (fun n => (n : ℚ))

/-- JavaScript `a.reduce((sum, val, i) => sum + val * b[i], 0)` for equal-length
vectors (every call site pairs vectors over the same vocabulary). -/
def dotProduct (a b : List ℚ) : ℚ := (List.zipWith (fun x y => x * y) a b).sum

/-- Sum of squares of a vector, the radicand of `Math.sqrt` in
`cosineSimilarity`. -/
def sumSq (a : List ℚ) : ℚ := (a.map (fun x => x * x)).sum

/-- IEEE division as used by `cosineSimilarity`: a zero denominator there
always comes with a zero numerator (a zero-norm factor zeroes the dot
product), so the result is `0/0 = NaN`, modelled as `none`. -/
noncomputable def jsDiv (x y : ℝ) : Option ℝ :=
  if y = 0 then none else some (x / y)

/-- The function `cosineSimilarity(a, b)` from `server.js`:
`dotProduct / (Math.sqrt(sumSq a) * Math.sqrt(sumSq b))`. -/
noncomputable def cosineSimilarity (a b : List ℚ) : Option ℝ :=
  jsDiv ((dotProduct a b : ℚ) : ℝ)
    (Real.sqrt ((sumSq a : ℚ) : ℝ) * Real.sqrt ((sumSq b : ℚ) : ℝ))

/-- A stored chunk of a document record: `{ ...chunk, embedding: vector }`. -/
structure EmbChunk where
  id : ℕ
  text : Str
  embedding : List ℕ
deriving DecidableEq

/-- The `scoredChunks` array of `/ask`: pair every stored chunk with
`cosineSimilarity(questionVector, chunk.embedding)`. -/
noncomputable def scoreChunks (qv : List ℕ) (chunks : List EmbChunk) :
    List (EmbChunk × Option ℝ) :=
  chunks.map (fun c => (c, cosineSimilarity (toRatVec qv) (toRatVec c.embedding)))

/-- The sort comparator `(a, b) => b.similarity - a.similarity` of `/ask`,
turned into the "may precede" test used by a stable sort: `a` may precede
`b` exactly when the comparator value is `≤ 0`.  When either similarity is
`NaN` the comparator evaluates to `NaN`, which the ECMAScript `SortCompare`
operation replaces by `+0`, i.e. the elements compare as equal. -/
noncomputable def simLE (a b : EmbChunk × Option ℝ) : Bool :=
  match a.2, b.2 with
  | some x, some y => decide (y ≤ x)
  | _, _ => true

/-- Stable insertion: place `x` before the first element it may precede. -/
def insertStable (le : α → α → Bool) (x : α) : List α → List α
  | [] => [x]
  | y :: ys => if le x y then x :: y :: ys else y :: insertStable le x ys

/-- Stable insertion sort, modelling `Array.prototype.sort` (stable per
ECMAScript 2019; for a total transitive comparator the result is the unique
stable sorted reordering). -/
def stableSort (le : α → α → Bool) : List α → List α
  | [] => []
  | x :: xs => insertStable le x (stableSort le xs)

/-- The ranking of `/ask`: `scoredChunks.sort((a,b) => b.similarity - a.similarity).slice(0, 3)`
(the endpoint's `topK` is the literal `3`). -/
noncomputable def rankChunks (qv : List ℕ) (chunks : List EmbChunk) :
    List (EmbChunk × Option ℝ) :=
  (stableSort simLE (scoreChunks qv chunks)).take 3

/-- Modelled from the spec: the spec-side ranking contract of §4.3,
"sorted by descending score, ties broken by original segment order (stable
sort), truncated to `topK`".  Each scored segment is tagged with its
original position, sorted by the total order "strictly greater score, or
equal score and smaller original position", untagged, and truncated.
(The catch-all `true` branch is unreachable when every score is defined.) -/
noncomputable def lexLE (a b : ℕ × (EmbChunk × Option ℝ)) : Bool :=
  match a.2.2, b.2.2 with
  | some x, some y => decide (y < x) || (decide (x = y) && decide (a.1 ≤ b.1))
  | _, _ => true

/-- Modelled from the spec: `rank` per §4.3 with `topK = 3`; see `lexLE`. -/
noncomputable def specRank (qv : List ℕ) (chunks : List EmbChunk) :
    List (EmbChunk × Option ℝ) :=
  (((stableSort lexLE (scoreChunks qv chunks).enum).map Prod.snd)).take 3

/-- A document record as stored by `/upload` in `documentStore`. -/
structure DocRecord where
  chunks : List EmbChunk
  vocabulary : List Str
  pages : ℕ
  totalChunks : ℕ
deriving DecidableEq

/-- The in-memory `documentStore` (`Map`), newest entry first. -/
abbrev Store := List (Str × DocRecord)

/-- JavaScript `documentStore.get(docId)`. -/
def lookupDoc : Store → Str → Option DocRecord
  | [], _ => none
  | (k, r) :: rest, d => if k = d then some r else lookupDoc rest d

/-- The record built by `/upload` from the extracted text: chunk with
`chunkText(text, 800, 150)`, build the 500-term vocabulary over all chunk
texts, embed every chunk against it, and bundle the page count. -/
def mkRecord (text : Str) (pages : ℕ) : DocRecord :=
  let chunks := chunkText text 800 150
  let vocabulary := buildVocabulary (chunks.map Chunk.text) 500
  { chunks := chunks.map (fun c => ⟨c.id, c.text, simpleEmbedding c.text vocabulary⟩)
    vocabulary := vocabulary
    pages := pages
    totalChunks := chunks.length }

/-- JavaScript `documentStore.set(docId, record)` at the end of `/upload`; the store
registers the record unconditionally, even when `chunks` is empty.  The
identifier (`Date.now().toString()` in the source) is a parameter here. -/
def uploadDoc (store : Store) (docId : Str) (text : Str) (pages : ℕ) : Store :=
  (docId, mkRecord text pages) :: store

/-- The structured failures of `/ask`: the 400 for a falsy question or
document id, and the 404 for an unknown document id. -/
inductive AskError where
  | missingInput
  | documentNotFound
deriving DecidableEq

/-- The JSON success payload of `/ask`: `{ answer, chunksUsed, contextSize }`. -/
structure AskResponse where
  answer : Str
  chunksUsed : ℕ
  contextSize : ℕ
deriving DecidableEq

/-- JavaScript `topChunks.map(c => c.text).join('\n\n---\n\n')`. -/
def joinContext (texts : List Str) : Str :=
  match texts with
  | [] => []
  | [t] => t
  | t :: u :: ts => t ++ ('\n' :: '\n' :: '-' :: '-' :: '-' :: '\n' :: '\n' :: []) ++ joinContext (u :: ts)

/-- The prompt template of `/ask`, with the retrieved context and the
question interpolated at their template positions (apostrophes written as
code points). -/
def mkPrompt (context question : Str) : Str :=
  ("You are a helpful, friendly assistant answering questions about a document. \n\nHere are the most relevant sections from the document:\n\n<document>\n").toList
    ++ context
    ++ ("\n</document>\n\nPlease answer the user\x27s question in a natural, conversational way:\n- Explain the information clearly and concisely\n- Use bullet points only when listing multiple items makes it clearer\n- Organize the information logically\n- If there are specific requirements or rules, present them in an easy-to-understand format\n- Be helpful and direct - avoid unnecessary preambles like \"Based on the document...\"\n- If the answer isn\x27t in these sections, politely say so and suggest what information might be needed\n\nQuestion: ").toList
    ++ question
    ++ ("\n\nAnswer:").toList

/-- The `/ask` endpoint over the embedded store.  `complete` is the opaque
external completion capability (`anthropic.messages.create`); the handler
reaches it only on the success path, so a result that is independent of
`complete` was produced without invoking it.  JavaScript falsiness of
`question`/`docId` (absent or empty string) is the emptiness test. -/
noncomputable def askQuestion (complete : Str → Str) (store : Store)
    (docId question : Str) : Except AskError AskResponse :=
  if question = [] ∨ docId = [] then .error .missingInput
  else
    match lookupDoc store docId with
    | none => .error .documentNotFound
    | some doc =>
      let questionVector := simpleEmbedding question doc.vocabulary
      let top := rankChunks questionVector doc.chunks
      let context := joinContext (top.map (fun p => p.1.text))
      .ok { answer := complete (mkPrompt context question)
            chunksUsed := top.length
            contextSize := context.length }

/-- The candidate segment `a` (vector `[2, 0]`) of the spec's ranker
ordering example. -/
def demoA : EmbChunk := ⟨0, ['a'], [2, 0]⟩

/-- The candidate segment `b` (vector `[1, 0]`) of the spec's ranker
ordering example. -/
def demoB : EmbChunk := ⟨1, ['b'], [1, 0]⟩

/-- Modelled from the spec: "deduplicate preserving first-occurrence
order", read as a left fold that appends a token only when it has not been
kept before. -/
def specDedup (l : List Str) : List Str :=
  l.foldl (fun acc w => if w ∈ acc then acc else acc ++ [w]) []

/-- Modelled from the spec: the §4.2 `buildVocabulary` contract — tokens of
all segment texts concatenated in segment order (tokenization by
lower-casing and taking maximal runs of word characters, which is exactly
`wordsOf`), deduplicated preserving first-occurrence order, truncated to
`maxTerms`. -/
def specVocabulary (texts : List Str) (maxTerms : ℕ) : List Str :=
  (specDedup (texts.map wordsOf).flatten).take maxTerms

end RagServer

namespace RagServer

/-! ### Helper lemmas -/

theorem sumSq_nonneg (a : List ℚ) : 0 ≤ sumSq a := by
  refine List.sum_nonneg ?_
  intro x hx
  obtain ⟨y, _, rfl⟩ := List.mem_map.1 hx
  exact mul_self_nonneg y

theorem dotProduct_self (v : List ℚ) : dotProduct v v = sumSq v := by
  unfold dotProduct sumSq
  induction v with
  | nil => rfl
  | cons x xs ih => simp_all [List.zipWith_cons_cons]

theorem cosineSimilarity_defined {a b : List ℚ} (ha : sumSq a ≠ 0)
    (hb : sumSq b ≠ 0) : ∃ x, cosineSimilarity a b = some x := by
  have ha' : (0:ℝ) < ((sumSq a : ℚ) : ℝ) := by
    have := sumSq_nonneg a
    have : (0:ℝ) ≤ ((sumSq a : ℚ) : ℝ) := by exact_mod_cast this
    rcases this.lt_or_eq with h | h
    · exact h
    · exact absurd (by exact_mod_cast h.symm) ha
  have hb' : (0:ℝ) < ((sumSq b : ℚ) : ℝ) := by
    have := sumSq_nonneg b
    have : (0:ℝ) ≤ ((sumSq b : ℚ) : ℝ) := by exact_mod_cast this
    rcases this.lt_or_eq with h | h
    · exact h
    · exact absurd (by exact_mod_cast h.symm) hb
  have hden : Real.sqrt ((sumSq a : ℚ) : ℝ) * Real.sqrt ((sumSq b : ℚ) : ℝ) ≠ 0 :=
    ne_of_gt (mul_pos (Real.sqrt_pos.2 ha') (Real.sqrt_pos.2 hb'))
  unfold cosineSimilarity jsDiv
  simp only [if_neg hden]
  exact ⟨_, rfl⟩

theorem joinSp_cons_cons (w v : Str) (ws : List Str) :
    joinSp (w :: v :: ws) = w ++ ' ' :: joinSp (v :: ws) := rfl

theorem splitSpaceAux_ne_nil (acc l) : splitSpaceAux acc l ≠ [] := by
  induction l generalizing acc with
  | nil => simp [splitSpaceAux]
  | cons c rest ih =>
    by_cases hc : c = ' ' <;> simp [splitSpaceAux, hc, ih]

theorem joinSp_splitSpaceAux (l acc : Str) :
    joinSp (splitSpaceAux acc l) = acc.reverse ++ l := by
  induction l generalizing acc with
  | nil => simp [splitSpaceAux, joinSp]
  | cons c rest ih =>
    by_cases hc : c = ' '
    · rw [splitSpaceAux, if_pos hc]
      obtain ⟨v, ws, hvw⟩ := List.exists_cons_of_ne_nil (splitSpaceAux_ne_nil [] rest)
      rw [hvw, joinSp_cons_cons, ← hvw, ih]
      simp [hc]
    · rw [splitSpaceAux, if_neg hc, ih]
      simp

theorem joinSp_splitSpace (s : Str) : joinSp (splitSpace s) = s := by
  simpa using joinSp_splitSpaceAux s []

theorem jsSliceFromEnd_eq_take_reverse (l : List α) (n : ℕ) (hn : n ≠ 0) :
    jsSliceFromEnd l n = (l.reverse.take n).reverse := by
  unfold jsSliceFromEnd
  rw [if_neg hn, List.reverse_take]
  simp

theorem insertStable_perm (le : α → α → Bool) (x : α) (l : List α) :
    List.Perm (insertStable le x l) (x :: l) := by
  induction l with
  | nil => exact List.Perm.refl _
  | cons y ys ih =>
    by_cases h : le x y
    · simp [insertStable, h]
    · simp only [insertStable, if_neg h]
      exact (ih.cons y).trans (List.Perm.swap x y ys)

theorem mem_insertStable {le : α → α → Bool} {x a : α} {l : List α} :
    a ∈ insertStable le x l ↔ a = x ∨ a ∈ l := by
  rw [(insertStable_perm le x l).mem_iff, List.mem_cons]

theorem stableSort_perm (le : α → α → Bool) (l : List α) :
    List.Perm (stableSort le l) l := by
  induction l with
  | nil => exact List.Perm.refl _
  | cons x xs ih => exact (insertStable_perm le x _).trans (ih.cons x)

theorem mem_stableSort {le : α → α → Bool} {a : α} {l : List α} :
    a ∈ stableSort le l ↔ a ∈ l :=
  (stableSort_perm le l).mem_iff

theorem insertStable_congr (le1 le2 : α → α → Bool) (x : α) (l : List α)
    (h : ∀ y ∈ l, le1 x y = le2 x y) :
    insertStable le1 x l = insertStable le2 x l := by
  induction l with
  | nil => rfl
  | cons y ys ih =>
    have hy := h y (List.mem_cons_self _ _)
    simp only [insertStable, hy]
    by_cases h2 : le2 x y
    · simp [h2]
    · simp [h2, ih (fun z hz => h z (List.mem_cons_of_mem _ hz))]

theorem stableSort_congr (le1 le2 : α → α → Bool) (l : List α)
    (h : List.Pairwise (fun a b => le1 a b = le2 a b) l) :
    stableSort le1 l = stableSort le2 l := by
  induction l with
  | nil => rfl
  | cons x xs ih =>
    obtain ⟨hx, hxs⟩ := List.pairwise_cons.1 h
    simp only [stableSort]
    rw [ih hxs]
    exact insertStable_congr le1 le2 x _ (fun y hy => hx y (mem_stableSort.1 hy))

theorem map_snd_insertStable (le : α → α → Bool) (x : ℕ × α) (L : List (ℕ × α)) :
    (insertStable (fun a b => le a.2 b.2) x L).map Prod.snd =
      insertStable le x.2 (L.map Prod.snd) := by
  induction L with
  | nil => rfl
  | cons y ys ih =>
    simp only [insertStable, List.map_cons]
    by_cases h : le x.2 y.2
    · simp [h]
    · simp [h, ih]

theorem map_snd_stableSort (le : α → α → Bool) (L : List (ℕ × α)) :
    (stableSort (fun a b => le a.2 b.2) L).map Prod.snd =
      stableSort le (L.map Prod.snd) := by
  induction L with
  | nil => rfl
  | cons x xs ih =>
    simp only [stableSort, List.map_cons]
    rw [map_snd_insertStable, ih]

theorem pairwise_fst_lt_enumFrom (n : ℕ) (l : List α) :
    List.Pairwise (fun a b : ℕ × α => a.1 < b.1) (l.enumFrom n) := by
  induction l generalizing n with
  | nil => simp
  | cons x xs ih =>
    refine List.Pairwise.cons ?_ (ih (n + 1))
    intro b hb
    exact lt_of_lt_of_le (Nat.lt_succ_self n) (List.mem_enumFrom hb).1

theorem pairwise_insertStable (le : α → α → Bool) (x : α) (l : List α)
    (htot : ∀ a ∈ x :: l, ∀ b ∈ x :: l, le a b = true ∨ le b a = true)
    (htrans : ∀ a ∈ x :: l, ∀ b ∈ x :: l, ∀ c ∈ x :: l,
      le a b = true → le b c = true → le a c = true)
    (hp : List.Pairwise (fun a b => le a b = true) l) :
    List.Pairwise (fun a b => le a b = true) (insertStable le x l) := by
  induction l with
  | nil => simp [insertStable]
  | cons y ys ih =>
    obtain ⟨hy, hys⟩ := List.pairwise_cons.1 hp
    have lift : ∀ a, a ∈ x :: ys → a ∈ x :: y :: ys := by
      intro a ha
      rcases List.mem_cons.1 ha with rfl | h
      · exact List.mem_cons_self _ _
      · exact List.mem_cons_of_mem _ (List.mem_cons_of_mem _ h)
    by_cases hxy : le x y = true
    · simp only [insertStable, if_pos hxy]
      refine List.Pairwise.cons ?_ hp
      intro z hz
      rcases List.mem_cons.1 hz with rfl | hz'
      · exact hxy
      · exact htrans x (List.mem_cons_self _ _)
          y (List.mem_cons_of_mem _ (List.mem_cons_self _ _))
          z (lift z (List.mem_cons_of_mem _ hz')) hxy (hy z hz')
    · simp only [insertStable, if_neg hxy]
      have hyx : le y x = true :=
        (htot x (List.mem_cons_self _ _)
          y (List.mem_cons_of_mem _ (List.mem_cons_self _ _))).resolve_left hxy
      refine List.Pairwise.cons ?_ (ih (fun a ha b hb => htot a (lift a ha) b (lift b hb))
        (fun a ha b hb c hc => htrans a (lift a ha) b (lift b hb) c (lift c hc)) hys)
      intro z hz
      rcases mem_insertStable.1 hz with rfl | hz'
      · exact hyx
      · exact hy z hz'

theorem pairwise_stableSort (le : α → α → Bool) (l : List α)
    (htot : ∀ a ∈ l, ∀ b ∈ l, le a b = true ∨ le b a = true)
    (htrans : ∀ a ∈ l, ∀ b ∈ l, ∀ c ∈ l, le a b = true → le b c = true → le a c = true) :
    List.Pairwise (fun a b => le a b = true) (stableSort le l) := by
  induction l with
  | nil => simp [stableSort]
  | cons x xs ih =>
    have lift : ∀ a, a ∈ x :: stableSort le xs → a ∈ x :: xs := by
      intro a ha
      rcases List.mem_cons.1 ha with rfl | h
      · exact List.mem_cons_self _ _
      · exact List.mem_cons_of_mem _ (mem_stableSort.1 h)
    simp only [stableSort]
    exact pairwise_insertStable le x _
      (fun a ha b hb => htot a (lift a ha) b (lift b hb))
      (fun a ha b hb c hc => htrans a (lift a ha) b (lift b hb) c (lift c hc))
      (ih (fun a ha b hb => htot a (List.mem_cons_of_mem _ ha) b (List.mem_cons_of_mem _ hb))
        (fun a ha b hb c hc => htrans a (List.mem_cons_of_mem _ ha)
          b (List.mem_cons_of_mem _ hb) c (List.mem_cons_of_mem _ hc)))

theorem scoreChunks_defined {qv : List ℕ} {chunks : List EmbChunk}
    (hq : sumSq (toRatVec qv) ≠ 0)
    (hc : ∀ c ∈ chunks, sumSq (toRatVec c.embedding) ≠ 0) :
    ∀ p ∈ scoreChunks qv chunks, ∃ x, p.2 = some x := by
  intro p hp
  obtain ⟨c, hcm, rfl⟩ := List.mem_map.1 hp
  exact cosineSimilarity_defined hq (hc c hcm)

theorem simLE_eq_lexLE_of_le {a b : ℕ × (EmbChunk × Option ℝ)} {x y : ℝ}
    (hx : a.2.2 = some x) (hy : b.2.2 = some y) (hij : a.1 ≤ b.1) :
    simLE a.2 b.2 = lexLE a b := by
  unfold simLE lexLE
  rw [hx, hy]
  simp only [hij, decide_True]
  rcases lt_trichotomy y x with h | h | h
  · simp [h.le, h]
  · simp [h.le, h.symm]
  · simp [not_le.2 h, h.ne, (not_lt.2 h.le : ¬y < x)]

theorem rank_eq_specRank {qv : List ℕ} {chunks : List EmbChunk}
    (hq : sumSq (toRatVec qv) ≠ 0)
    (hc : ∀ c ∈ chunks, sumSq (toRatVec c.embedding) ≠ 0) :
    rankChunks qv chunks = specRank qv chunks := by
  have hdef := scoreChunks_defined hq hc
  unfold rankChunks specRank
  congr 1
  have hmem : ∀ p : ℕ × (EmbChunk × Option ℝ),
      p ∈ (scoreChunks qv chunks).enum → p.2 ∈ scoreChunks qv chunks := by
    intro p hp
    have := List.mem_map_of_mem Prod.snd hp
    rwa [List.enum_map_snd] at this
  have hpw : List.Pairwise
      (fun a b : ℕ × (EmbChunk × Option ℝ) =>
        (fun a b => simLE a.2 b.2) a b = lexLE a b)
      ((scoreChunks qv chunks).enum) := by
    refine List.Pairwise.imp_of_mem ?_ (pairwise_fst_lt_enumFrom 0 (scoreChunks qv chunks))
    intro a b ha hb hlt
    obtain ⟨x, hx⟩ := hdef a.2 (hmem a ha)
    obtain ⟨y, hy⟩ := hdef b.2 (hmem b hb)
    exact simLE_eq_lexLE_of_le hx hy hlt.le
  calc stableSort simLE (scoreChunks qv chunks)
      = stableSort simLE (((scoreChunks qv chunks).enum).map Prod.snd) := by
        rw [List.enum_map_snd]
    _ = (stableSort (fun a b => simLE a.2 b.2) ((scoreChunks qv chunks).enum)).map
          Prod.snd := (map_snd_stableSort _ _).symm
    _ = (stableSort lexLE ((scoreChunks qv chunks).enum)).map Prod.snd := by
        rw [stableSort_congr _ _ _ hpw]

theorem rank_sorted {qv : List ℕ} {chunks : List EmbChunk}
    (hq : sumSq (toRatVec qv) ≠ 0)
    (hc : ∀ c ∈ chunks, sumSq (toRatVec c.embedding) ≠ 0) :
    (rankChunks qv chunks).Pairwise (fun p q => simLE p q = true) := by
  have hdef := scoreChunks_defined hq hc
  unfold rankChunks
  refine List.Pairwise.sublist (List.take_sublist _ _) ?_
  apply pairwise_stableSort
  · intro a ha b hb
    obtain ⟨x, hx⟩ := hdef a ha
    obtain ⟨y, hy⟩ := hdef b hb
    unfold simLE
    rw [hx, hy]
    rcases le_total y x with h | h
    · exact Or.inl (by simp [h])
    · exact Or.inr (by simp [h])
  · intro a ha b hb c hc' h1 h2
    obtain ⟨x, hx⟩ := hdef a ha
    obtain ⟨y, hy⟩ := hdef b hb
    obtain ⟨z, hz⟩ := hdef c hc'
    unfold simLE at h1 h2 ⊢
    rw [hx, hy] at h1
    rw [hy, hz] at h2
    rw [hx, hz]
    simp only [decide_eq_true_eq] at h1 h2 ⊢
    exact h2.trans h1

theorem dedupFirstAux_eq_foldl (l : List Str) :
    ∀ (seen acc : List Str), (∀ w, w ∈ seen ↔ w ∈ acc) →
      acc ++ dedupFirstAux seen l =
        l.foldl (fun acc w => if w ∈ acc then acc else acc ++ [w]) acc := by
  induction l with
  | nil => intro seen acc _; simp [dedupFirstAux]
  | cons w rest ih =>
    intro seen acc h
    by_cases hw : w ∈ seen
    · rw [List.foldl_cons, if_pos ((h w).1 hw)]
      simp only [dedupFirstAux, if_pos hw]
      exact ih seen acc h
    · rw [List.foldl_cons, if_neg (fun hc => hw ((h w).2 hc))]
      simp only [dedupFirstAux, if_neg hw]
      have hiff : ∀ u, u ∈ w :: seen ↔ u ∈ acc ++ [w] := by
        intro u
        simp only [List.mem_cons, List.mem_append, List.mem_singleton, h u]
        tauto
      calc acc ++ w :: dedupFirstAux (w :: seen) rest
          = (acc ++ [w]) ++ dedupFirstAux (w :: seen) rest := by simp
        _ = _ := ih (w :: seen) (acc ++ [w]) hiff

theorem dedupFirstAux_nodup (l : List Str) :
    ∀ seen : List Str,
      (dedupFirstAux seen l).Nodup ∧ ∀ w ∈ dedupFirstAux seen l, w ∉ seen := by
  induction l with
  | nil => intro seen; simp [dedupFirstAux]
  | cons w rest ih =>
    intro seen
    by_cases hw : w ∈ seen
    · simp only [dedupFirstAux, if_pos hw]
      exact ih seen
    · simp only [dedupFirstAux, if_neg hw]
      obtain ⟨hnd, hmem⟩ := ih (w :: seen)
      refine ⟨List.Nodup.cons (fun hcon => (hmem w hcon) (List.mem_cons_self _ _)) hnd, ?_⟩
      intro u hu
      rcases List.mem_cons.1 hu with rfl | hu'
      · exact hw
      · exact fun hus => (hmem u hu') (List.mem_cons_of_mem _ hus)

/-! ### Claim theorems -/

/-- C1: the claim says a zero-norm side forces similarity score `0`
(never `NaN`).  The code has no zero-norm guard: for the equal-length
vectors `a = [0]` (zero Euclidean norm) and `b = [1]` it computes
`0 / (0 * 1) = 0 / 0`, IEEE `NaN` (modelled `none`), not `0`. -/
theorem c1_zero_norm_gives_nan : cosineSimilarity [0] [1] = none := by
  unfold cosineSimilarity jsDiv dotProduct sumSq
  norm_num

/-- C9: the cosine score of every non-zero vector with itself is `1`. -/
theorem c9_self_similarity (v : List ℚ) (h : sumSq v ≠ 0) :
    cosineSimilarity v v = some 1 := by
  have h0 : (0:ℝ) ≤ ((sumSq v : ℚ) : ℝ) := by exact_mod_cast sumSq_nonneg v
  have hne : ((sumSq v : ℚ) : ℝ) ≠ 0 := by exact_mod_cast h
  unfold cosineSimilarity jsDiv
  rw [Real.mul_self_sqrt h0, if_neg hne, dotProduct_self]
  rw [div_self hne]

/-- Witness for C9 at the concrete non-zero vector `[1]`. -/
theorem c9_witness : sumSq [1] ≠ 0 ∧ cosineSimilarity [1] [1] = some 1 :=
  ⟨by norm_num [sumSq], c9_self_similarity [1] (by norm_num [sumSq])⟩

/-- C5: every stored segment's vector length equals the record's
vocabulary length, and the vocabulary holds at most 500 terms. -/
theorem c5_record_invariant (text : Str) (pages : ℕ) (c : EmbChunk)
    (hc : c ∈ (mkRecord text pages).chunks) :
    c.embedding.length = (mkRecord text pages).vocabulary.length ∧
      (mkRecord text pages).vocabulary.length ≤ 500 := by
  constructor
  · simp only [mkRecord] at hc ⊢
    obtain ⟨a, _, rfl⟩ := List.mem_map.1 hc
    simp [simpleEmbedding]
  · simp only [mkRecord, buildVocabulary]
    exact List.length_take_le _ _

/-- Witness for C5: the record ingested from `"hi"` and its single chunk. -/
theorem c5_witness :
    (⟨0, ['h', 'i'], [1]⟩ : EmbChunk) ∈ (mkRecord ['h', 'i'] 1).chunks ∧
      ((⟨0, ['h', 'i'], [1]⟩ : EmbChunk).embedding.length =
          (mkRecord ['h', 'i'] 1).vocabulary.length ∧
        (mkRecord ['h', 'i'] 1).vocabulary.length ≤ 500) :=
  ⟨by decide, c5_record_invariant ['h', 'i'] 1 ⟨0, ['h', 'i'], [1]⟩ (by decide)⟩

/-- C7: ingesting text that chunks to zero segments still registers a
record (with an empty segment list) under the given identifier, and a
subsequent ask on that identifier does not fail with `DocumentNotFound`.
The identifier itself is a parameter here (the source generates it with
`Date.now().toString()`). -/
theorem c7_empty_ingest_registers (store : Store) (docId text : Str)
    (pages : ℕ) (question : Str) (complete : Str → Str)
    (hchunks : chunkText text 800 150 = []) (hd : docId ≠ []) (hq : question ≠ []) :
    lookupDoc (uploadDoc store docId text pages) docId = some (mkRecord text pages) ∧
      (mkRecord text pages).chunks = [] ∧
      askQuestion complete (uploadDoc store docId text pages) docId question ≠
        Except.error AskError.documentNotFound := by
  have hlook : lookupDoc (uploadDoc store docId text pages) docId = some (mkRecord text pages) := by
    simp [uploadDoc, lookupDoc]
  refine ⟨hlook, ?_, ?_⟩
  · simp [mkRecord, hchunks]
  · unfold askQuestion
    rw [if_neg (by simp [hd, hq])]
    rw [hlook]
    simp

/-- Witness for C7 at the empty document text. -/
theorem c7_witness :
    chunkText [] 800 150 = [] ∧
      (lookupDoc (uploadDoc [] ['d'] [] 0) ['d'] = some (mkRecord [] 0) ∧
        (mkRecord [] 0).chunks = [] ∧
        askQuestion (fun _ => []) (uploadDoc [] ['d'] [] 0) ['d'] ['q'] ≠
          Except.error AskError.documentNotFound) :=
  ⟨by decide,
    c7_empty_ingest_registers [] ['d'] [] 0 ['q'] (fun _ => [])
      (by decide) (by decide) (by decide)⟩

/-- C8: asking about an identifier that is not in the store fails with
`DocumentNotFound`.  The completion capability `complete` is universally
quantified and the result does not depend on it, so the capability is
never invoked on this path. -/
theorem c8_unknown_doc (complete : Str → Str) (store : Store)
    (docId question : Str) (hl : lookupDoc store docId = none)
    (hq : question ≠ []) (hd : docId ≠ []) :
    askQuestion complete store docId question =
      Except.error AskError.documentNotFound := by
  unfold askQuestion
  rw [if_neg (by simp [hd, hq]), hl]

/-- Witness for C8 on the empty store. -/
theorem c8_witness :
    lookupDoc [] ['d'] = none ∧
      askQuestion (fun _ => []) [] ['d'] ['q'] =
        Except.error AskError.documentNotFound :=
  ⟨rfl, c8_unknown_doc (fun _ => []) [] ['d'] ['q'] rfl (by decide) (by decide)⟩

/-- C10: asking against a stored record whose segment list is empty
succeeds (no `DocumentNotFound`, no failure): the ranking of zero
candidates is empty, the context handed to the completion capability is
the empty string (visible in the prompt argument), and the response
reports `chunksUsed = 0` and `contextSize = 0`. -/
theorem c10_empty_record_ask (complete : Str → Str) (store : Store)
    (docId question : Str) (r : DocRecord)
    (hl : lookupDoc store docId = some r) (hc : r.chunks = [])
    (hq : question ≠ []) (hd : docId ≠ []) :
    askQuestion complete store docId question =
      Except.ok ⟨complete (mkPrompt [] question), 0, 0⟩ := by
  unfold askQuestion
  rw [if_neg (by simp [hd, hq]), hl]
  simp [hc, rankChunks, scoreChunks, stableSort, joinContext]

/-- Witness for C10: a store holding one record with no segments. -/
theorem c10_witness :
    lookupDoc [(['d'], mkRecord [] 0)] ['d'] = some (mkRecord [] 0) ∧
      (mkRecord [] 0).chunks = [] ∧
      askQuestion (fun _ => []) [(['d'], mkRecord [] 0)] ['d'] ['q'] =
        Except.ok ⟨(fun _ => ([] : Str)) (mkPrompt [] ['q']), 0, 0⟩ :=
  ⟨by decide, by decide,
    c10_empty_record_ask (fun _ => []) [(['d'], mkRecord [] 0)] ['d'] ['q']
      (mkRecord [] 0) (by decide) (by decide) (by decide) (by decide)⟩

/-- C2 fails on the code: for `chunkText "aa\n\nbb\n\ncc" 3 0` the overlap
word count is `floor(0 / 5) = 0`, so the claim predicts that each closed
segment is followed by a buffer holding only the triggering paragraph,
i.e. the segments `["aa", "bb", "cc"]`.  The code instead produces
`["aa", "aa bb", "aa bb cc"]`, because `words.slice(-0)` is `words.slice(0)`,
the whole word list. -/
theorem c2_counterexample :
    (chunkText ("aa\n\nbb\n\ncc".toList) 3 0).map Chunk.text =
        ["aa".toList, "aa bb".toList, "aa bb cc".toList] ∧
      ["aa".toList, "aa bb".toList, "aa bb cc".toList] ≠
        ["aa".toList, "bb".toList, "cc".toList] := by
  decide

/-- C2 amended: when `floor(overlapBudget / 5) = 0`, `slice(-0)` keeps the
whole word array, so on closing a segment the new buffer is seeded with the
entire closed buffer (its space-split words rejoined, which restores the
buffer verbatim) before the triggering paragraph is appended. -/
theorem c2_zero_overlap_keeps_all (chunkSize overlap : ℕ) (st : ChunkState)
    (para : Str) (ho : overlap < 5)
    (hlen : (st.current ++ para).length > chunkSize) (hcur : st.current ≠ []) :
    chunkStep chunkSize overlap st para =
      { chunks := st.chunks ++ [⟨st.idx, trimStr st.current⟩]
        current := st.current ++ ' ' :: para
        idx := st.idx + 1 } := by
  unfold chunkStep
  rw [if_pos ⟨hlen, List.length_pos.2 hcur⟩, Nat.div_eq_of_lt ho]
  simp [jsSliceFromEnd, joinSp_splitSpace]

/-- Witness for the amended C2: closing `"aa"` on paragraph `"bb"` with
overlap budget `0` seeds the new buffer with all of `"aa"`. -/
theorem c2_witness :
    chunkStep 3 0 ⟨[], ['a', 'a'], 0⟩ ['b', 'b'] =
      { chunks := [] ++ [⟨0, trimStr ['a', 'a']⟩]
        current := ['a', 'a'] ++ ' ' :: ['b', 'b']
        idx := 0 + 1 } :=
  c2_zero_overlap_keeps_all 3 0 ⟨[], ['a', 'a'], 0⟩ ['b', 'b']
    (by decide) (by decide) (by decide)

/-- C3 fails on the code: the closed buffer is split on single space
characters, not on whitespace, so a buffer that holds two paragraphs joined
by `"\n\n"` counts as one word.  For `chunkText "aa\n\nbb\n\ncccc" 6 10`
(overlap word count `floor(10 / 5) = 2`) the claim predicts the second
segment `"aa bb cccc"` (trailing two whitespace-delimited words `"aa"`,
`"bb"` joined with single spaces); the code produces `"aa\n\nbb cccc"`. -/
theorem c3_counterexample :
    (chunkText ("aa\n\nbb\n\ncccc".toList) 6 10).map Chunk.text =
        ["aa\n\nbb".toList, "aa\n\nbb cccc".toList] ∧
      ("aa\n\nbb cccc".toList : Str) ≠ "aa bb cccc".toList := by
  decide

/-- C3 amended: for a positive overlap word count `k = floor(overlapBudget / 5)`,
the new buffer is seeded with the trailing `k` elements of the closed
buffer split on single space characters (pieces may contain newlines, and
consecutive spaces contribute empty pieces), joined with single spaces,
followed by a space and the triggering paragraph. -/
theorem c3_space_split_overlap (chunkSize overlap : ℕ) (st : ChunkState)
    (para : Str) (hk : overlap / 5 ≠ 0)
    (hlen : (st.current ++ para).length > chunkSize) (hcur : st.current ≠ []) :
    chunkStep chunkSize overlap st para =
      { chunks := st.chunks ++ [⟨st.idx, trimStr st.current⟩]
        current :=
          joinSp (((splitSpace st.current).reverse.take (overlap / 5)).reverse) ++
            ' ' :: para
        idx := st.idx + 1 } := by
  unfold chunkStep
  rw [if_pos ⟨hlen, List.length_pos.2 hcur⟩, jsSliceFromEnd_eq_take_reverse _ _ hk]

/-- Witness for the amended C3: closing `"aa\n\nbb"` on paragraph `"cccc"`
with overlap budget `10` (two trailing space-split pieces). -/
theorem c3_witness :
    chunkStep 6 10 ⟨[], "aa\n\nbb".toList, 0⟩ ("cccc".toList) =
      { chunks := [] ++ [⟨0, trimStr ("aa\n\nbb".toList)⟩]
        current :=
          joinSp (((splitSpace ("aa\n\nbb".toList)).reverse.take (10 / 5)).reverse) ++
            ' ' :: "cccc".toList
        idx := 0 + 1 } :=
  c3_space_split_overlap 6 10 ⟨[], "aa\n\nbb".toList, 0⟩ ("cccc".toList)
    (by decide) (by decide) (by decide)

/-- C4: whenever every involved score is defined (non-zero-norm query and
candidates; with a `NaN` score the comparator is inconsistent and
ECMAScript leaves the sort order implementation-defined), the ranking of
`/ask` equals the spec-side `specRank`: the scored segments sorted by
descending cosine score with ties broken by original segment order (a
total order on position-tagged segments), truncated to `topK = 3`; the
output is moreover pairwise sorted under the code's comparator.  In
particular, for the spec's example — candidates `a = [2,0]`, `b = [1,0]`,
query `[1,0]` — ranking `[a, b]` yields `[a, b]`, both with score `1`. -/
theorem c4_rank_stable_sorted :
    (∀ (qv : List ℕ) (chunks : List EmbChunk),
        sumSq (toRatVec qv) ≠ 0 →
        (∀ c ∈ chunks, sumSq (toRatVec c.embedding) ≠ 0) →
        rankChunks qv chunks = specRank qv chunks ∧
          (rankChunks qv chunks).Pairwise (fun p q => simLE p q = true)) ∧
      rankChunks [1, 0] [demoA, demoB] = [(demoA, some 1), (demoB, some 1)] := by
  constructor
  · intro qv chunks hq hc
    exact ⟨rank_eq_specRank hq hc, rank_sorted hq hc⟩
  · have h4 : Real.sqrt 4 = 2 := by
      rw [show (4:ℝ) = 2 * 2 by norm_num, Real.sqrt_mul_self (by norm_num : (0:ℝ) ≤ 2)]
    have hA : cosineSimilarity (toRatVec [1, 0]) (toRatVec [2, 0]) = some 1 := by
      unfold cosineSimilarity jsDiv toRatVec dotProduct sumSq
      norm_num [h4]
    have hB : cosineSimilarity (toRatVec [1, 0]) (toRatVec [1, 0]) = some 1 := by
      unfold cosineSimilarity jsDiv toRatVec dotProduct sumSq
      norm_num
    unfold rankChunks scoreChunks demoA demoB
    simp only [List.map_cons, List.map_nil]
    rw [show cosineSimilarity (toRatVec [1, 0]) (toRatVec [2, 0]) = some 1 from hA,
        show cosineSimilarity (toRatVec [1, 0]) (toRatVec [1, 0]) = some 1 from hB]
    simp [stableSort, insertStable, simLE]

/-- Witness for C4's general part at a one-element candidate list with a
non-zero query. -/
theorem c4_witness :
    sumSq (toRatVec [1]) ≠ 0 ∧
      (rankChunks [1] [⟨7, [], [1]⟩] = specRank [1] [⟨7, [], [1]⟩] ∧
        (rankChunks [1] [⟨7, [], [1]⟩]).Pairwise (fun p q => simLE p q = true)) :=
  ⟨by norm_num [toRatVec, sumSq],
    c4_rank_stable_sorted.1 [1] [⟨7, [], [1]⟩] (by norm_num [toRatVec, sumSq])
      (by
        intro c hc
        simp only [List.mem_singleton] at hc
        subst hc
        norm_num [toRatVec, sumSq])⟩

/-- C6: the vocabulary built by `/upload` is the token stream of all
segment texts in segment order (lower-cased maximal runs of word
characters), deduplicated preserving first-occurrence order (stated
against the spec-side left fold `specDedup`), truncated to the first
`maxTerms` entries; in particular it never holds duplicates. -/
theorem c6_build_vocabulary (texts : List Str) (maxTerms : ℕ) :
    buildVocabulary texts maxTerms = specVocabulary texts maxTerms ∧
      (buildVocabulary texts maxTerms).Nodup := by
  constructor
  · unfold buildVocabulary specVocabulary dedupFirst specDedup
    rw [List.flatMap_def]
    congr 1
    simpa using (dedupFirstAux_eq_foldl ((texts.map wordsOf).flatten) [] [] (by simp))
  · unfold buildVocabulary
    exact List.Nodup.sublist (List.take_sublist _ _) (dedupFirstAux_nodup _ []).1

end RagServer
